import Mathlib

/-!
Verification of the ancillary-data (control message) layer of `fd-queue`
(`src/biqueue/iomsg.rs`), shallowly embedded for the Linux x86-64 platform the
crate targets in its tests (`libc::ucred`, `SCM_CREDENTIALS`):

  * `size_of::<cmsghdr>() = 16` (fields: `cmsg_len : usize` at offset 0,
    `cmsg_level : c_int` at offset 8, `cmsg_type : c_int` at offset 12),
  * `size_of::<RawFd>() = 4` (`RawFd = c_int = i32`), little-endian byte order,
  * `CMSG_ALIGN(n) = (n + 7) / 8 * 8` (alignment of `usize` = 8),
  * `SOL_SOCKET = 1`, `SCM_RIGHTS = 1`.

An ancillary region is modelled as a list of bytes (`List Nat`, each entry a
value `< 256` wherever the code writes one) together with the value of
`msg_controllen`; pointers into the region are byte offsets.  Machine integers
are `Nat`/`Int` with explicit `% 2 ^ 32` / `% 2 ^ 64` at the points where the
Rust code casts (`as u32`, `as c_uint`) and a distinguished `panic` outcome at
the points where the code's `try_into().unwrap()` / `assert!` can abort.
-/

/-- `libc::SOL_SOCKET` on Linux. -/
def SOL_SOCKET : Nat := 1

/-- `libc::SCM_RIGHTS` on Linux. -/
def SCM_RIGHTS : Nat := 1

/-- `mem::size_of::<RawFd>()` (a `RawFd` is a `c_int`). -/
def sizeof_RawFd : Nat := 4

/-- `CMSG_ALIGN` of the libc crate on 64-bit Linux:
`(len + size_of::<usize>() - 1) & !(size_of::<usize>() - 1)`. -/
def CMSG_ALIGN (len : Nat) : Nat := (len + 7) / 8 * 8

/-- `libc::CMSG_SPACE(length : c_uint) -> c_uint`:
`(cmsg_align(length as usize) + cmsg_align(size_of::<cmsghdr>())) as c_uint`.
`cmsg_align(size_of::<cmsghdr>()) = CMSG_ALIGN 16 = 16`; the result is cast
back to a 32-bit value. -/
def CMSG_SPACE (length : Nat) : Nat := (CMSG_ALIGN length + CMSG_ALIGN 16) % 2 ^ 32

/-- `libc::CMSG_LEN(length : c_uint) -> c_uint`:
`(cmsg_align(size_of::<cmsghdr>()) + length as usize) as c_uint`. -/
def CMSG_LEN (length : Nat) : Nat := (CMSG_ALIGN 16 + length) % 2 ^ 32

/-- `cmsg_buffer_fds_space` from `iomsg.rs`:
`CMSG_SPACE((count * mem::size_of::<RawFd>()) as u32) as usize`.
The product is computed in `usize` (wrapping at `2 ^ 64` in release mode) and
then truncated to 32 bits by the `as u32` cast before `CMSG_SPACE` sees it. -/
def cmsg_buffer_fds_space (count : Nat) : Nat :=
  CMSG_SPACE (count * sizeof_RawFd % 2 ^ 64 % 2 ^ 32)

/-! ### Byte-level memory primitives

The control buffer is a `List Nat` of bytes.  `readLe buf o k` reads the
little-endian `k`-byte value at offset `o` (out-of-range bytes read as 0; all
reads performed by the embedded code are in range for the cases the theorems
cover).  `writeBytes buf o bs` stores the bytes `bs` starting at offset `o`
(`List.set` ignores out-of-range stores, matching that all stores performed by
the code are in range). -/

/-- Little-endian byte decomposition of `v` into `k` bytes. -/
def leBytes : Nat → Nat → List Nat
  | 0, _ => []
  | k + 1, v => v % 256 :: leBytes k (v / 256)

/-- Read the little-endian `k`-byte value stored at offset `o`. -/
def readLe (buf : List Nat) (o : Nat) : Nat → Nat
  | 0 => 0
  | k + 1 => buf.getD o 0 + 256 * readLe buf (o + 1) k

/-- Store the bytes `bs` at offsets `o, o+1, ...`. -/
def writeBytes (buf : List Nat) (o : Nat) : List Nat → List Nat
  | [] => buf
  | b :: bs => writeBytes (buf.set o b) (o + 1) bs

/-- Store `v` as a little-endian `k`-byte value at offset `o`. -/
def writeLe (buf : List Nat) (o k v : Nat) : List Nat := writeBytes buf o (leBytes k v)

theorem leBytes_length (k v : Nat) : (leBytes k v).length = k := by
  induction k generalizing v with
  | zero => rfl
  | succ k ih => simp [leBytes, ih]

theorem getD_set (l : List Nat) (i j b : Nat) :
    (l.set i b).getD j 0 = if i = j ∧ j < l.length then b else l.getD j 0 := by
  induction l generalizing i j with
  | nil => simp [List.set]
  | cons a t ih =>
    cases i with
    | zero =>
      cases j with
      | zero => simp
      | succ j => simp
    | succ i =>
      cases j with
      | zero => simp
      | succ j =>
        simp only [List.set, List.getD_cons_succ, List.length_cons, ih]
        by_cases hc : i = j ∧ j < t.length
        · rw [if_pos hc, if_pos (by omega)]
        · rw [if_neg hc, if_neg (by omega)]

theorem writeBytes_length (bs : List Nat) (buf : List Nat) (o : Nat) :
    (writeBytes buf o bs).length = buf.length := by
  induction bs generalizing buf o with
  | nil => rfl
  | cons b bs ih => simp [writeBytes, ih]

theorem getD_writeBytes (bs : List Nat) (buf : List Nat) (o j : Nat) :
    (writeBytes buf o bs).getD j 0 =
      if o ≤ j ∧ j < o + bs.length ∧ j < buf.length then bs.getD (j - o) 0
      else buf.getD j 0 := by
  induction bs generalizing buf o with
  | nil =>
    simp only [writeBytes, List.length_nil]
    rw [if_neg (by omega)]
  | cons b bs ih =>
    simp only [writeBytes, List.length_cons]
    rw [ih, List.length_set, getD_set]
    rcases Nat.lt_trichotomy o j with h | h | h
    · by_cases h1 : j < o + 1 + bs.length ∧ j < buf.length
      · rw [if_pos ⟨by omega, h1⟩, if_pos ⟨by omega, by omega, h1.2⟩]
        have hj : j - o = j - (o + 1) + 1 := by omega
        rw [hj, List.getD_cons_succ]
      · rw [if_neg (by omega), if_neg (by omega), if_neg (by omega)]
    · subst h
      rw [if_neg (by omega)]
      by_cases h2 : o < buf.length
      · rw [if_pos ⟨rfl, h2⟩, if_pos ⟨le_refl o, by omega, h2⟩]
        simp
      · rw [if_neg (by omega), if_neg (by omega)]
    · rw [if_neg (by omega), if_neg (by omega), if_neg (by omega)]

theorem getD_writeBytes_outside (bs : List Nat) (buf : List Nat) (o j : Nat)
    (h : j < o ∨ o + bs.length ≤ j) :
    (writeBytes buf o bs).getD j 0 = buf.getD j 0 := by
  rw [getD_writeBytes, if_neg (by omega)]

theorem readLe_congr (k : Nat) (b1 b2 : List Nat) (o1 o2 : Nat)
    (h : ∀ i, i < k → b1.getD (o1 + i) 0 = b2.getD (o2 + i) 0) :
    readLe b1 o1 k = readLe b2 o2 k := by
  induction k generalizing o1 o2 with
  | zero => rfl
  | succ k ih =>
    have h0 := h 0 (by omega)
    simp only [Nat.add_zero] at h0
    simp only [readLe, h0]
    congr 1
    congr 1
    exact ih (o1 + 1) (o2 + 1) fun i hi => by
      have := h (i + 1) (by omega)
      simpa [Nat.add_assoc, Nat.add_comm 1 i] using this

theorem readLe_writeBytes_leBytes (k : Nat) (buf : List Nat) (o v : Nat)
    (h : o + k ≤ buf.length) :
    readLe (writeBytes buf o (leBytes k v)) o k = v % 256 ^ k := by
  induction k generalizing buf o v with
  | zero => simp [readLe, Nat.mod_one]
  | succ k ih =>
    simp only [leBytes, writeBytes, readLe]
    have hlen : (buf.set o (v % 256)).length = buf.length := by simp
    have hd : (writeBytes (buf.set o (v % 256)) (o + 1) (leBytes k (v / 256))).getD o 0
        = v % 256 := by
      rw [getD_writeBytes_outside _ _ _ _ (Or.inl (by omega)), getD_set,
        if_pos ⟨rfl, by omega⟩]
    rw [hd, ih (buf.set o (v % 256)) (o + 1) (v / 256) (by omega)]
    rw [pow_succ', Nat.mod_mul]

theorem readLe_writeLe (k : Nat) (buf : List Nat) (o v : Nat)
    (h : o + k ≤ buf.length) :
    readLe (writeLe buf o k v) o k = v % 256 ^ k :=
  readLe_writeBytes_leBytes k buf o v h

theorem writeLe_length (buf : List Nat) (o k v : Nat) :
    (writeLe buf o k v).length = buf.length := by
  simp [writeLe, writeBytes_length]

theorem getD_writeLe_outside (buf : List Nat) (o k v j : Nat)
    (h : j < o ∨ o + k ≤ j) :
    (writeLe buf o k v).getD j 0 = buf.getD j 0 := by
  apply getD_writeBytes_outside
  rw [leBytes_length]
  exact h

/-! ### The descriptor handle `Fd` -/

/-- `Fd` from `iomsg.rs`: a safe owner of a contained `RawFd`
(`fd: Option<RawFd>`).  Handle ids are `i32` values, modelled as `Int`. -/
structure Fd where
  fd : Option Int
  deriving DecidableEq

/-- `Fd::new(fd)`. -/
def Fd.new (fd : Int) : Fd := ⟨some fd⟩

/-- `impl IntoRawFd for Fd`:
`self.fd.take().expect("Attempt to take the RawFd contained in an Fd a second time")`.
The `none` result models the `expect` panic: no id is ever returned from an
empty wrapper.  On success the wrapper is left empty. -/
def Fd.into_raw_fd (f : Fd) : Option (Int × Fd) :=
  match f.fd with
  | some id => some (id, ⟨none⟩)
  | none => none

/-- `impl Drop for Fd` closes the contained id if one is present; the list of
ids closed when each element of a list of `Fd`s is dropped. -/
def closedFds (l : List Fd) : List Int := l.filterMap (fun f => f.fd)

/-- The bit pattern (as a `Nat < 2 ^ 32`) of an `i32` handle id: what
`fd.to_ne_bytes()` stores on a little-endian machine. -/
def toUInt32 (fd : Int) : Nat := (fd % 2 ^ 32).toNat

/-- `fd.to_ne_bytes()` for a `RawFd` (i32, little-endian). -/
def toNeBytes (fd : Int) : List Nat := leBytes 4 (toUInt32 fd)

/-- The `i32` value read (by `read_unaligned::<RawFd>`) from the 4-byte
little-endian pattern `n < 2 ^ 32`. -/
def decodeRawFd (n : Nat) : Int := if n < 2 ^ 31 then (n : Int) else (n : Int) - 2 ^ 32

theorem toUInt32_lt (fd : Int) : toUInt32 fd < 2 ^ 32 := by
  have h1 : fd % 2 ^ 32 < 2 ^ 32 := Int.emod_lt_of_pos fd (by norm_num)
  simp only [toUInt32]
  omega

theorem decodeRawFd_toUInt32 (fd : Int) (h1 : -(2 ^ 31) ≤ fd) (h2 : fd < 2 ^ 31) :
    decodeRawFd (toUInt32 fd) = fd := by
  have hmod : fd % 2 ^ 32 = fd ∨ fd % 2 ^ 32 = fd + 2 ^ 32 := by
    rcases le_or_lt 0 fd with h | h
    · left
      exact Int.emod_eq_of_lt h (by omega)
    · right
      have : (fd + 2 ^ 32) % 2 ^ 32 = fd % 2 ^ 32 := by
        simp [Int.add_mul_emod_self_left]
      rw [← this]
      exact Int.emod_eq_of_lt (by omega) (by omega)
  simp only [decodeRawFd, toUInt32]
  rcases hmod with h | h <;> rw [h] <;> split <;> omega

/-! ### The send path: `MsgHdr::<SendStart>::encode_fds`

`encode_fds` writes a single `(SOL_SOCKET, SCM_RIGHTS)` control message into
the caller's scratch buffer.  The state after the call is the buffer contents
plus the `msg_control` / `msg_controllen` fields of the message header and the
`SendReady` descriptor count.  A `bufferTooSmall` outcome carries the scratch
buffer contents as they stand when the error is returned (the mutable borrow
ends with the call, so the caller can observe them).  A `panic` outcome marks
the inputs on which `try_into().unwrap()` or the `assert!` in `CMsgMut::data`
aborts (only reachable for control buffers of at least `2 ^ 32` bytes). -/

structure SendReadyOut where
  buf : List Nat
  controlNull : Bool
  controllen : Nat
  fds_count : Nat
  deriving DecidableEq

inductive EncodeResult where
  | ok : SendReadyOut → EncodeResult
  | bufferTooSmall : List Nat → EncodeResult
  | panic : EncodeResult
  deriving DecidableEq

/-- The `for fd in fds` loop of `encode_fds`: `dataOff` / `dataLen` delimit the
remaining writable `CMsgMut::data` slice, `count` the descriptors written so
far.  Each step checks `data.len() < fd_size`, then copies
`fd.to_ne_bytes()` and advances the slice. -/
def encodeLoop (buf : List Nat) (dataOff dataLen count : Nat) :
    List Int → Except (List Nat) (List Nat × Nat)
  | [] => .ok (buf, count)
  | fd :: rest =>
    if dataLen < sizeof_RawFd then .error buf
    else encodeLoop (writeBytes buf dataOff (toNeBytes fd)) (dataOff + sizeof_RawFd)
      (dataLen - sizeof_RawFd) (count + 1) rest

/-- `MsgHdr::<SendStart>::encode_fds(fds)`, on a header built by
`from_io_slice` with scratch buffer `buf` (so `msg_control` points at `buf` and
`msg_controllen = buf.len()`).

* `CMSG_FIRSTHDR` is null iff `buf.len() < 16`; in that case the code errors
  iff `fds` is non-empty (`fds.count() > 0`).
* Otherwise `CMsgMut::first_cmsg` computes `data_size = buf.len() - 16`
  (panicking via `try_into::<u32>().unwrap()` if it exceeds `u32::MAX`), sets
  `cmsg_level`, `cmsg_type` and `cmsg_len = CMSG_LEN(data_size)`, and
  `CMsgMut::data` yields the byte range `[16, cmsg_len)` (its
  `assert!(data_size <= isize::MAX)` fires if the stored `cmsg_len` wrapped
  below 16).
* After the loop, `shrink_data_len(count * 4)` rewrites `cmsg_len` to
  `CMSG_LEN(count * 4)` when that is smaller than the stored value, and the
  header's `msg_control` / `msg_controllen` are set to null/0 when `count = 0`
  and to `cmsg_buffer_fds_space(count)` otherwise. -/
def encode_fds (buf : List Nat) (fds : List Int) : EncodeResult :=
  if buf.length < 16 then
    if 0 < fds.length then .bufferTooSmall buf else .ok ⟨buf, true, 0, 0⟩
  else if 2 ^ 32 ≤ buf.length - 16 then .panic
  else
    let maxLen := CMSG_LEN (buf.length - 16)
    let buf3 := writeLe (writeLe (writeLe buf 8 4 SOL_SOCKET) 12 4 SCM_RIGHTS) 0 8 maxLen
    if maxLen < 16 then .panic
    else
      match encodeLoop buf3 16 (maxLen - 16) 0 fds with
      | .error b => .bufferTooSmall b
      | .ok (buf4, count) =>
        let newLen := CMSG_LEN (count * sizeof_RawFd)
        let buf5 := if newLen < readLe buf4 0 8 then writeLe buf4 0 8 newLen else buf4
        if count = 0 then .ok ⟨buf5, true, 0, 0⟩
        else .ok ⟨buf5, false, cmsg_buffer_fds_space count, count⟩

/-! ### The receive path: control-message navigation and `FdsIter`

`buf` is the received control buffer (`msg_control`), `cl` the value of
`msg_controllen` reported by `recvmsg`. -/

/-- `CMSG_FIRSTHDR`: the first control message starts at offset 0 iff
`msg_controllen >= size_of::<cmsghdr>()`. -/
def cmsgFirsthdr (cl : Nat) : Option Nat := if 16 ≤ cl then some 0 else none

/-- `CMSG_NXTHDR` of the libc crate (same logic as glibc): starting from the
record at offset `o`, return the offset of the next record, or none when the
current `cmsg_len` is malformed (`< 16`) or the next record does not fit
within `msg_controllen`.  The second fit check reads the next record's own
`cmsg_len` field. -/
def cmsgNxthdr (buf : List Nat) (cl o : Nat) : Option Nat :=
  if readLe buf o 8 < 16 then none
  else
    let next := o + CMSG_ALIGN (readLe buf o 8)
    if cl < next + 16 then none
    else if cl < next + CMSG_ALIGN (readLe buf next 8) then none
    else some next

theorem CMSG_ALIGN_ge (len : Nat) : len ≤ CMSG_ALIGN len := by
  simp only [CMSG_ALIGN]
  omega

theorem cmsgNxthdr_bound (buf : List Nat) (cl o o2 : Nat)
    (h : cmsgNxthdr buf cl o = some o2) : o + 16 ≤ o2 ∧ o2 + 16 ≤ cl := by
  simp only [cmsgNxthdr] at h
  by_cases h1 : readLe buf o 8 < 16
  · simp [h1] at h
  · rw [if_neg h1] at h
    by_cases h2 : cl < o + CMSG_ALIGN (readLe buf o 8) + 16
    · simp [h2] at h
    · rw [if_neg h2] at h
      by_cases h3 : cl < o + CMSG_ALIGN (readLe buf o 8) +
          CMSG_ALIGN (readLe buf (o + CMSG_ALIGN (readLe buf o 8)) 8)
      · simp [h3] at h
      · rw [if_neg h3] at h
        have halign := CMSG_ALIGN_ge (readLe buf o 8)
        simp only [Option.some.injEq] at h
        omega

/-- The relevance test of `FdsIterData::new`:
`cmsg.cmsg_level == SOL_SOCKET && cmsg.cmsg_type == SCM_RIGHTS` for the record
at offset `o` (`cmsg_level` at byte offset 8, `cmsg_type` at 12). -/
def relevantRecord (buf : List Nat) (o : Nat) : Bool :=
  readLe buf (o + 8) 4 == SOL_SOCKET && readLe buf (o + 12) 4 == SCM_RIGHTS

/-- The pointer pair of `FdsIterData` (invariant: `curr <= endp`), as byte
offsets into the control buffer. -/
structure FdsIterData where
  curr : Nat
  endp : Nat
  deriving DecidableEq

/-- `FdsIterData::new(cmsg)`: for a relevant record, `curr` points at
`CMSG_DATA(cmsg) = cmsg + 16` and `endp = curr + 4 * fds_count` where
`fds_count = data_size / size_of::<RawFd>()` rounds down and
`data_size = cmsg_len - 16`.  (The source computes `data_size` by pointer
subtraction, which for a malformed `cmsg_len < 16` would wrap; `Nat`
subtraction truncates to 0 instead.  The source also asserts
`cmsg_len <= isize::MAX`; all records covered by the theorems satisfy it.) -/
def FdsIterData.new (buf : List Nat) (o : Nat) : Option FdsIterData :=
  if relevantRecord buf o then
    some ⟨o + 16, o + 16 + sizeof_RawFd * ((readLe buf o 8 - 16) / sizeof_RawFd)⟩
  else none

/-- `Iterator::next` for `FdsIterData`: while `curr < endp`, read one `RawFd`
unaligned, advance `curr` by one `RawFd`, and wrap the id in a fresh `Fd`. -/
def FdsIterData.next (buf : List Nat) (d : FdsIterData) : Option (Fd × FdsIterData) :=
  if d.curr < d.endp then
    some (Fd.new (decodeRawFd (readLe buf d.curr 4)), ⟨d.curr + sizeof_RawFd, d.endp⟩)
  else none

/-- The `FdsIter` state: current record offset (`cmsg`) and current data
cursor (`data`). -/
structure FdsIter where
  cmsg : Option Nat
  data : Option FdsIterData
  deriving DecidableEq

/-- `FdsIter::empty`. -/
def FdsIter.empty : FdsIter := ⟨none, none⟩

/-- `FdsIter::new(mhdr)`: position on the first control message and build its
data cursor. -/
def FdsIter.new (buf : List Nat) (cl : Nat) : FdsIter :=
  ⟨cmsgFirsthdr cl, (cmsgFirsthdr cl).bind (FdsIterData.new buf)⟩

/-- `Iterator::next` for `FdsIter`: yield from the current data cursor if
possible, otherwise `advance_cmsg` (via `CMSG_NXTHDR`) and loop; terminate
when the record chain is exhausted. -/
def fdsIterNext (buf : List Nat) (cl : Nat) (s : FdsIter) : Option (Fd × FdsIter) :=
  match s.data.bind (fun d => d.next buf) with
  | some (fd, d2) => some (fd, ⟨s.cmsg, some d2⟩)
  | none =>
    match hc : s.cmsg with
    | none => none
    | some o =>
      match hx : cmsgNxthdr buf cl o with
      | none => none
      | some o2 => fdsIterNext buf cl ⟨some o2, FdsIterData.new buf o2⟩
termination_by match s.cmsg with | none => 0 | some o => cl + 16 - o
decreasing_by
  simp only [hc]
  have := cmsgNxthdr_bound buf cl o o2 hx
  omega

/-! ### Step lemmas and termination measures for `fdsIterNext` -/

def iterM1 (cl : Nat) (s : FdsIter) : Nat :=
  match s.cmsg with
  | none => 0
  | some o => cl + 16 - o

def iterM2 (s : FdsIter) : Nat :=
  match s.data with
  | none => 0
  | some d => d.endp - d.curr

theorem FdsIterData.next_pos (buf : List Nat) (d : FdsIterData) (h : d.curr < d.endp) :
    d.next buf = some (Fd.new (decodeRawFd (readLe buf d.curr 4)),
      ⟨d.curr + sizeof_RawFd, d.endp⟩) := by
  simp [FdsIterData.next, h]

theorem FdsIterData.next_neg (buf : List Nat) (d : FdsIterData) (h : ¬d.curr < d.endp) :
    d.next buf = none := by
  simp [FdsIterData.next, h]

theorem fdsIterNext_yield (buf : List Nat) (cl : Nat) (s : FdsIter) (d : FdsIterData)
    (fd : Fd) (d2 : FdsIterData) (hd : s.data = some d) (hn : d.next buf = some (fd, d2)) :
    fdsIterNext buf cl s = some (fd, ⟨s.cmsg, some d2⟩) := by
  rw [fdsIterNext]
  simp [hd, hn]

theorem fdsIterNext_cmsg_none (buf : List Nat) (cl : Nat) (s : FdsIter)
    (hb : s.data.bind (fun d => d.next buf) = none) (hc : s.cmsg = none) :
    fdsIterNext buf cl s = none := by
  rw [fdsIterNext]
  simp only [hb]
  split
  · rfl
  · rename_i o heq
    rw [hc] at heq
    exact absurd heq (by simp)

theorem fdsIterNext_last (buf : List Nat) (cl : Nat) (s : FdsIter) (o : Nat)
    (hb : s.data.bind (fun d => d.next buf) = none) (hc : s.cmsg = some o)
    (hx : cmsgNxthdr buf cl o = none) :
    fdsIterNext buf cl s = none := by
  rw [fdsIterNext]
  simp only [hb]
  split
  · rfl
  · rename_i o1 heq
    rw [hc] at heq
    simp only [Option.some.injEq] at heq
    subst heq
    split
    · rfl
    · rename_i o2 heq2
      rw [hx] at heq2
      exact absurd heq2 (by simp)

theorem fdsIterNext_advance (buf : List Nat) (cl : Nat) (s : FdsIter) (o o2 : Nat)
    (hb : s.data.bind (fun d => d.next buf) = none) (hc : s.cmsg = some o)
    (hx : cmsgNxthdr buf cl o = some o2) :
    fdsIterNext buf cl s = fdsIterNext buf cl ⟨some o2, FdsIterData.new buf o2⟩ := by
  conv => lhs; rw [fdsIterNext]
  simp only [hb]
  split
  · rename_i heq
    rw [hc] at heq
    exact absurd heq (by simp)
  · rename_i o1 heq
    rw [hc] at heq
    simp only [Option.some.injEq] at heq
    subst heq
    split
    · rename_i heq2
      rw [hx] at heq2
      exact absurd heq2 (by simp)
    · rename_i o3 heq2
      rw [hx] at heq2
      simp only [Option.some.injEq] at heq2
      subst heq2
      rfl

theorem fdsIterNext_measure (buf : List Nat) (cl : Nat) :
    ∀ (n : Nat) (s : FdsIter) (fd : Fd) (s2 : FdsIter), iterM1 cl s ≤ n →
      fdsIterNext buf cl s = some (fd, s2) →
      iterM1 cl s2 < iterM1 cl s ∨ (iterM1 cl s2 = iterM1 cl s ∧ iterM2 s2 < iterM2 s) := by
  intro n
  induction n with
  | zero =>
    intro s fd s2 hle hnext
    rcases hb : s.data.bind (fun d => d.next buf) with _ | p
    · rcases hc : s.cmsg with _ | o
      · rw [fdsIterNext_cmsg_none buf cl s hb hc] at hnext
        exact absurd hnext (by simp)
      · rcases hx : cmsgNxthdr buf cl o with _ | o2
        · rw [fdsIterNext_last buf cl s o hb hc hx] at hnext
          exact absurd hnext (by simp)
        · have hbd := cmsgNxthdr_bound buf cl o o2 hx
          simp only [iterM1, hc] at hle
          omega
    · rcases hd : s.data with _ | d
      · rw [hd] at hb
        simp at hb
      · rw [hd] at hb
        simp only [Option.some_bind] at hb
        rcases p with ⟨fd0, d2⟩
        rw [fdsIterNext_yield buf cl s d fd0 d2 hd hb] at hnext
        simp only [Option.some.injEq, Prod.mk.injEq] at hnext
        right
        rcases hnext with ⟨hfd, hs2⟩
        subst hs2
        constructor
        · simp [iterM1]
        · by_cases hlt : d.curr < d.endp
          · rw [FdsIterData.next_pos buf d hlt] at hb
            simp only [Option.some.injEq, Prod.mk.injEq] at hb
            simp only [iterM2, hd, ← hb.2]
            simp [sizeof_RawFd]
            omega
          · rw [FdsIterData.next_neg buf d hlt] at hb
            simp at hb
  | succ n ih =>
    intro s fd s2 hle hnext
    rcases hb : s.data.bind (fun d => d.next buf) with _ | p
    · rcases hc : s.cmsg with _ | o
      · rw [fdsIterNext_cmsg_none buf cl s hb hc] at hnext
        exact absurd hnext (by simp)
      · rcases hx : cmsgNxthdr buf cl o with _ | o2
        · rw [fdsIterNext_last buf cl s o hb hc hx] at hnext
          exact absurd hnext (by simp)
        · have hbd := cmsgNxthdr_bound buf cl o o2 hx
          rw [fdsIterNext_advance buf cl s o o2 hb hc hx] at hnext
          have hm : iterM1 cl ⟨some o2, FdsIterData.new buf o2⟩ < iterM1 cl s := by
            simp only [iterM1, hc]
            omega
          have := ih ⟨some o2, FdsIterData.new buf o2⟩ fd s2 (by
            simp only [iterM1] at hm hle ⊢
            omega) hnext
          left
          rcases this with h | ⟨h1, _⟩
          · omega
          · omega
    · rcases hd : s.data with _ | d
      · rw [hd] at hb
        simp at hb
      · rw [hd] at hb
        simp only [Option.some_bind] at hb
        rcases p with ⟨fd0, d2⟩
        rw [fdsIterNext_yield buf cl s d fd0 d2 hd hb] at hnext
        simp only [Option.some.injEq, Prod.mk.injEq] at hnext
        right
        rcases hnext with ⟨hfd, hs2⟩
        subst hs2
        constructor
        · simp [iterM1]
        · by_cases hlt : d.curr < d.endp
          · rw [FdsIterData.next_pos buf d hlt] at hb
            simp only [Option.some.injEq, Prod.mk.injEq] at hb
            simp only [iterM2, hd, ← hb.2]
            simp [sizeof_RawFd]
            omega
          · rw [FdsIterData.next_neg buf d hlt] at hb
            simp at hb

/-! ### Draining an `FdsIter`

`impl Drop for FdsIter` runs `for fd in self { drop(fd) }`: it repeatedly
calls `next` and drops (closes) every yielded `Fd`.  `FdsIter.drain` is the
full sequence of `Fd`s produced by iterating `next` to exhaustion — both the
sequence a caller consuming the iterator sees, and the set of handles the
`Drop` impl closes. -/

def FdsIter.drain (buf : List Nat) (cl : Nat) (s : FdsIter) : List Fd :=
  match hn : fdsIterNext buf cl s with
  | none => []
  | some (fd, s2) => fd :: FdsIter.drain buf cl s2
termination_by (iterM1 cl s, iterM2 s)
decreasing_by
  rcases fdsIterNext_measure buf cl (iterM1 cl s) s fd s2 (le_refl _) hn with h | ⟨h1, h2⟩
  · exact Prod.Lex.left _ _ h
  · rw [h1]
    exact Prod.Lex.right _ h2

/-- The ids closed when an `FdsIter` is dropped (drain the remaining
iterator, dropping each yielded `Fd`). -/
def FdsIter.dropCloses (buf : List Nat) (cl : Nat) (s : FdsIter) : List Int :=
  closedFds (FdsIter.drain buf cl s)

theorem drain_none (buf : List Nat) (cl : Nat) (s : FdsIter)
    (h : fdsIterNext buf cl s = none) : FdsIter.drain buf cl s = [] := by
  rw [FdsIter.drain]
  split
  · rfl
  · rename_i fd s2 heq
    rw [h] at heq
    exact absurd heq (by simp)

theorem drain_cons (buf : List Nat) (cl : Nat) (s : FdsIter) (fd : Fd) (s2 : FdsIter)
    (h : fdsIterNext buf cl s = some (fd, s2)) :
    FdsIter.drain buf cl s = fd :: FdsIter.drain buf cl s2 := by
  rw [FdsIter.drain]
  split
  · rename_i heq
    rw [h] at heq
    exact absurd heq (by simp)
  · rename_i fd1 s1 heq
    rw [h] at heq
    simp only [Option.some.injEq, Prod.mk.injEq] at heq
    rw [heq.1, heq.2]

/-- Drain the remaining data of a single record (the fds from `curr` to
`endp`). -/
def FdsIterData.drain (buf : List Nat) (d : FdsIterData) : List Fd :=
  if h : d.curr < d.endp then
    Fd.new (decodeRawFd (readLe buf d.curr 4)) ::
      FdsIterData.drain buf ⟨d.curr + sizeof_RawFd, d.endp⟩
  else []
termination_by d.endp - d.curr
decreasing_by
  simp only [sizeof_RawFd]
  omega

theorem dataDrain_pos (buf : List Nat) (d : FdsIterData) (h : d.curr < d.endp) :
    FdsIterData.drain buf d = Fd.new (decodeRawFd (readLe buf d.curr 4)) ::
      FdsIterData.drain buf ⟨d.curr + sizeof_RawFd, d.endp⟩ := by
  rw [FdsIterData.drain]
  simp [h]

theorem dataDrain_neg (buf : List Nat) (d : FdsIterData) (h : ¬d.curr < d.endp) :
    FdsIterData.drain buf d = [] := by
  rw [FdsIterData.drain]
  simp [h]

/-- Fds contributed by the optional current data cursor. -/
def dataPart (buf : List Nat) : Option FdsIterData → List Fd
  | none => []
  | some d => FdsIterData.drain buf d

/-- The fds carried by the single record at offset `o`: empty unless the
record is a `(SOL_SOCKET, SCM_RIGHTS)` record. -/
def recordFds (buf : List Nat) (o : Nat) : List Fd :=
  dataPart buf (FdsIterData.new buf o)

/-- All record offsets of the control-message chain starting at offset `o`. -/
def chainOffsetsFrom (buf : List Nat) (cl o : Nat) : List Nat :=
  o :: match hx : cmsgNxthdr buf cl o with
       | none => []
       | some o2 => chainOffsetsFrom buf cl o2
termination_by cl + 16 - o
decreasing_by
  have := cmsgNxthdr_bound buf cl o o2 hx
  omega

/-- All record offsets of the control-message chain of a received region. -/
def chainOffsets (buf : List Nat) (cl : Nat) : List Nat :=
  match cmsgFirsthdr cl with
  | none => []
  | some o => chainOffsetsFrom buf cl o

/-- The fds of the whole chain starting at the record at offset `o`. -/
def chainFdsFrom (buf : List Nat) (cl o : Nat) : List Fd :=
  recordFds buf o ++
    match hx : cmsgNxthdr buf cl o with
    | none => []
    | some o2 => chainFdsFrom buf cl o2
termination_by cl + 16 - o
decreasing_by
  have := cmsgNxthdr_bound buf cl o o2 hx
  omega

/-- The fds present in a received ancillary region: the concatenation, over
the record chain, of each relevant record's fds. -/
def ancillaryFds (buf : List Nat) (cl : Nat) : List Fd :=
  match cmsgFirsthdr cl with
  | none => []
  | some o => chainFdsFrom buf cl o

/-- Concatenation of `f` over a list (the record chain). -/
def listFlat (f : Nat → List Fd) : List Nat → List Fd
  | [] => []
  | o :: rest => f o ++ listFlat f rest

theorem chainOffsetsFrom_last (buf : List Nat) (cl o : Nat)
    (h : cmsgNxthdr buf cl o = none) : chainOffsetsFrom buf cl o = [o] := by
  rw [chainOffsetsFrom]
  split
  · rfl
  · rename_i o2 heq
    rw [h] at heq
    exact absurd heq (by simp)

theorem chainOffsetsFrom_cons (buf : List Nat) (cl o o2 : Nat)
    (h : cmsgNxthdr buf cl o = some o2) :
    chainOffsetsFrom buf cl o = o :: chainOffsetsFrom buf cl o2 := by
  rw [chainOffsetsFrom]
  split
  · rename_i heq
    rw [h] at heq
    exact absurd heq (by simp)
  · rename_i o3 heq
    rw [h] at heq
    simp only [Option.some.injEq] at heq
    rw [heq]

theorem chainFdsFrom_last (buf : List Nat) (cl o : Nat)
    (h : cmsgNxthdr buf cl o = none) : chainFdsFrom buf cl o = recordFds buf o := by
  rw [chainFdsFrom]
  split
  · simp
  · rename_i o2 heq
    rw [h] at heq
    exact absurd heq (by simp)

theorem chainFdsFrom_cons (buf : List Nat) (cl o o2 : Nat)
    (h : cmsgNxthdr buf cl o = some o2) :
    chainFdsFrom buf cl o = recordFds buf o ++ chainFdsFrom buf cl o2 := by
  rw [chainFdsFrom]
  split
  · rename_i heq
    rw [h] at heq
    exact absurd heq (by simp)
  · rename_i o3 heq
    rw [h] at heq
    simp only [Option.some.injEq] at heq
    rw [heq]

/-! ### Drain = structural chain walk -/

def dataRem : Option FdsIterData → Nat
  | none => 0
  | some d => d.endp - d.curr

theorem dataPart_exhausted (buf : List Nat) (d : Option FdsIterData)
    (h : dataRem d = 0) : dataPart buf d = [] := by
  cases d with
  | none => rfl
  | some d =>
    simp only [dataRem] at h
    exact dataDrain_neg buf d (by omega)

theorem bind_next_exhausted (buf : List Nat) (d : Option FdsIterData)
    (h : dataRem d = 0) : d.bind (fun x => x.next buf) = none := by
  cases d with
  | none => rfl
  | some d =>
    simp only [dataRem] at h
    simp only [Option.some_bind]
    exact FdsIterData.next_neg buf d (by omega)

theorem drain_state_eq (buf : List Nat) (cl : Nat) :
    ∀ (n m o : Nat) (d : Option FdsIterData), cl + 16 - o ≤ n → dataRem d ≤ m →
      FdsIter.drain buf cl ⟨some o, d⟩ =
        dataPart buf d ++
          (match cmsgNxthdr buf cl o with
           | none => []
           | some o2 => chainFdsFrom buf cl o2) := by
  intro n
  induction n with
  | zero =>
    intro m
    induction m with
    | zero =>
      intro o d hn hm
      have hrem : dataRem d = 0 := by omega
      rw [dataPart_exhausted buf d hrem]
      have hb : d.bind (fun x => x.next buf) = none := bind_next_exhausted buf d hrem
      rcases hx : cmsgNxthdr buf cl o with _ | o2
      · rw [drain_none buf cl _ (fdsIterNext_last buf cl _ o hb rfl hx)]
        simp
      · have := cmsgNxthdr_bound buf cl o o2 hx
        omega
    | succ m ihm =>
      intro o d hn hm
      rcases d with _ | dd
      · exact ihm o none hn (by simp [dataRem])
      · by_cases hlt : dd.curr < dd.endp
        · have hy := fdsIterNext_yield buf cl ⟨some o, some dd⟩ dd _ _ rfl
            (FdsIterData.next_pos buf dd hlt)
          rw [drain_cons buf cl _ _ _ hy]
          have := ihm o (some ⟨dd.curr + sizeof_RawFd, dd.endp⟩) hn (by
            simp only [dataRem] at hm ⊢
            simp only [sizeof_RawFd]
            omega)
          rw [this]
          simp only [dataPart, dataDrain_pos buf dd hlt]
          rfl
        · exact ihm o (some dd) hn (by simp only [dataRem] at hm ⊢; omega)
  | succ n ihn =>
    intro m
    induction m with
    | zero =>
      intro o d hn hm
      have hrem : dataRem d = 0 := by omega
      rw [dataPart_exhausted buf d hrem]
      have hb : d.bind (fun x => x.next buf) = none := bind_next_exhausted buf d hrem
      rcases hx : cmsgNxthdr buf cl o with _ | o2
      · rw [drain_none buf cl _ (fdsIterNext_last buf cl _ o hb rfl hx)]
        simp
      · have hbd := cmsgNxthdr_bound buf cl o o2 hx
        have hadv := fdsIterNext_advance buf cl ⟨some o, d⟩ o o2 hb rfl hx
        have hdrain : FdsIter.drain buf cl ⟨some o, d⟩ =
            FdsIter.drain buf cl ⟨some o2, FdsIterData.new buf o2⟩ := by
          rcases h2 : fdsIterNext buf cl ⟨some o2, FdsIterData.new buf o2⟩ with _ | ⟨fd, s3⟩
          · rw [drain_none buf cl _ (hadv.trans h2), drain_none buf cl _ h2]
          · rw [drain_cons buf cl _ _ _ (hadv.trans h2), drain_cons buf cl _ _ _ h2]
        rw [hdrain]
        rw [ihn (dataRem (FdsIterData.new buf o2)) o2 (FdsIterData.new buf o2)
          (by omega) (le_refl _)]
        simp only [List.nil_append]
        rcases h3 : cmsgNxthdr buf cl o2 with _ | o4
        · rw [chainFdsFrom_last buf cl o2 h3]
          simp [recordFds]
        · rw [chainFdsFrom_cons buf cl o2 o4 h3]
          simp [recordFds]
    | succ m ihm =>
      intro o d hn hm
      rcases d with _ | dd
      · exact ihm o none hn (by simp [dataRem])
      · by_cases hlt : dd.curr < dd.endp
        · have hy := fdsIterNext_yield buf cl ⟨some o, some dd⟩ dd _ _ rfl
            (FdsIterData.next_pos buf dd hlt)
          rw [drain_cons buf cl _ _ _ hy]
          have := ihm o (some ⟨dd.curr + sizeof_RawFd, dd.endp⟩) hn (by
            simp only [dataRem] at hm ⊢
            simp only [sizeof_RawFd]
            omega)
          rw [this]
          simp only [dataPart, dataDrain_pos buf dd hlt]
          rfl
        · exact ihm o (some dd) hn (by simp only [dataRem] at hm ⊢; omega)

/-- The full drain of a fresh `FdsIter` over a received region equals the
structural walk of the record chain. -/
theorem drain_new_eq (buf : List Nat) (cl : Nat) :
    FdsIter.drain buf cl (FdsIter.new buf cl) = ancillaryFds buf cl := by
  by_cases h16 : 16 ≤ cl
  · have hfh : cmsgFirsthdr cl = some 0 := by simp [cmsgFirsthdr, h16]
    simp only [FdsIter.new, ancillaryFds, hfh, Option.some_bind]
    rw [drain_state_eq buf cl (cl + 16 - 0) (dataRem (FdsIterData.new buf 0)) 0
      (FdsIterData.new buf 0) (le_refl _) (le_refl _)]
    rcases h3 : cmsgNxthdr buf cl 0 with _ | o4
    · rw [chainFdsFrom_last buf cl 0 h3]
      simp [recordFds]
    · rw [chainFdsFrom_cons buf cl 0 o4 h3]
      simp [recordFds]
  · have hfh : cmsgFirsthdr cl = none := by simp [cmsgFirsthdr, h16]
    simp only [FdsIter.new, ancillaryFds, hfh, Option.none_bind]
    apply drain_none
    exact fdsIterNext_cmsg_none buf cl _ rfl rfl

/-- The drain of a fresh `FdsIter`, record by record. -/
theorem drain_new_flat (buf : List Nat) (cl : Nat) :
    FdsIter.drain buf cl (FdsIter.new buf cl) =
      listFlat (recordFds buf) (chainOffsets buf cl) := by
  rw [drain_new_eq]
  by_cases h16 : 16 ≤ cl
  · have hfh : cmsgFirsthdr cl = some 0 := by simp [cmsgFirsthdr, h16]
    simp only [ancillaryFds, chainOffsets, hfh]
    generalize 0 = o
    have : ∀ (n o : Nat), cl + 16 - o ≤ n →
        chainFdsFrom buf cl o = listFlat (recordFds buf) (chainOffsetsFrom buf cl o) := by
      intro n
      induction n with
      | zero =>
        intro o hn
        rcases h3 : cmsgNxthdr buf cl o with _ | o2
        · rw [chainFdsFrom_last buf cl o h3, chainOffsetsFrom_last buf cl o h3]
          simp [listFlat]
        · have := cmsgNxthdr_bound buf cl o o2 h3
          omega
      | succ n ih =>
        intro o hn
        rcases h3 : cmsgNxthdr buf cl o with _ | o2
        · rw [chainFdsFrom_last buf cl o h3, chainOffsetsFrom_last buf cl o h3]
          simp [listFlat]
        · have hbd := cmsgNxthdr_bound buf cl o o2 h3
          rw [chainFdsFrom_cons buf cl o o2 h3, chainOffsetsFrom_cons buf cl o o2 h3]
          simp only [listFlat]
          rw [ih o2 (by omega)]
    exact this (cl + 16 - o) o (le_refl _)
  · have hfh : cmsgFirsthdr cl = none := by simp [cmsgFirsthdr, h16]
    simp [ancillaryFds, chainOffsets, hfh, listFlat]

/-! ### The `RecvEnd` state -/

/-- `MsgHdrRecvEnd`: the received control buffer (`msg_control` contents),
the received `msg_controllen`, and the `fds_taken` flag. -/
structure MsgHdrRecvEnd where
  buf : List Nat
  controllen : Nat
  fds_taken : Bool
  deriving DecidableEq

/-- `MsgHdrRecvEnd::take_fds`: if the fds were already taken, return
`FdsIter::empty`; otherwise set the flag and return `FdsIter::new` over the
header.  Returns the iterator together with the updated receiver state. -/
def MsgHdrRecvEnd.take_fds (r : MsgHdrRecvEnd) : FdsIter × MsgHdrRecvEnd :=
  if r.fds_taken then (FdsIter.empty, r)
  else (FdsIter.new r.buf r.controllen, { r with fds_taken := true })

/-- `impl Drop for MsgHdrRecvEnd`: `if !self.fds_taken { drop(self.take_fds()) }` —
the ids closed when a `MsgHdrRecvEnd` is dropped.  Dropping the returned
`FdsIter` closes everything it would still yield. -/
def MsgHdrRecvEnd.dropCloses (r : MsgHdrRecvEnd) : List Int :=
  if r.fds_taken then []
  else FdsIter.dropCloses r.buf r.controllen (r.take_fds).1

/-- Calling `next` on an extraction sequence `k` times, collecting the yields:
`none` if the iterator is exhausted before `k` yields. -/
def consume (buf : List Nat) (cl : Nat) : Nat → FdsIter → Option (List Fd × FdsIter)
  | 0, s => some ([], s)
  | k + 1, s =>
    match fdsIterNext buf cl s with
    | none => none
    | some (fd, s2) => (consume buf cl k s2).map (fun p => (fd :: p.1, p.2))

/-! ### Arithmetic and data-record helper lemmas -/

theorem dataDrain_length (buf : List Nat) (k : Nat) :
    ∀ c : Nat, (FdsIterData.drain buf ⟨c, c + 4 * k⟩).length = k := by
  induction k with
  | zero =>
    intro c
    rw [dataDrain_neg buf _ (by simp)]
    rfl
  | succ k ih =>
    intro c
    rw [dataDrain_pos buf _ (by simp)]
    simp only [List.length_cons, sizeof_RawFd]
    have : c + 4 * (k + 1) = c + 4 + 4 * k := by omega
    rw [this] at *
    rw [show (⟨c + 4, c + 4 + 4 * k⟩ : FdsIterData) = ⟨c + 4, c + 4 + 4 * k⟩ from rfl]
    rw [ih (c + 4)]

theorem dataDrain_reads (buf : List Nat) (fds : List Int) :
    ∀ c : Nat,
      (∀ i, (hi : i < fds.length) → readLe buf (c + 4 * i) 4 = toUInt32 (fds.get ⟨i, hi⟩)) →
      (∀ fd ∈ fds, -(2 ^ 31) ≤ fd ∧ fd < 2 ^ 31) →
      FdsIterData.drain buf ⟨c, c + 4 * fds.length⟩ = fds.map Fd.new := by
  induction fds with
  | nil =>
    intro c _ _
    rw [dataDrain_neg buf _ (by simp)]
    rfl
  | cons fd rest ih =>
    intro c hread hrange
    rw [dataDrain_pos buf _ (by simp)]
    have h0 := hread 0 (by simp)
    simp only [Nat.mul_zero, Nat.add_zero, List.get] at h0
    have hrg := hrange fd (by simp)
    rw [h0, decodeRawFd_toUInt32 fd hrg.1 hrg.2]
    simp only [List.map_cons, Fd.new, sizeof_RawFd, List.length_cons]
    have harith : c + 4 * (rest.length + 1) = c + 4 + 4 * rest.length := by omega
    rw [harith]
    congr 1
    apply ih (c + 4)
    · intro i hi
      have := hread (i + 1) (by simp; omega)
      simp only [List.get] at this
      rw [show c + 4 * (i + 1) = c + 4 + 4 * i by omega] at this
      exact this
    · intro x hx
      exact hrange x (by simp [hx])

theorem encodeLoop_ok (fds : List Int) :
    ∀ (buf : List Nat) (off cap cnt : Nat),
      4 * fds.length ≤ cap → off + cap ≤ buf.length →
      ∃ bufOut, encodeLoop buf off cap cnt fds = .ok (bufOut, cnt + fds.length) ∧
        bufOut.length = buf.length ∧
        (∀ j, j < off ∨ off + 4 * fds.length ≤ j → bufOut.getD j 0 = buf.getD j 0) ∧
        (∀ i, (hi : i < fds.length) →
          readLe bufOut (off + 4 * i) 4 = toUInt32 (fds.get ⟨i, hi⟩)) := by
  induction fds with
  | nil =>
    intro buf off cap cnt _ _
    refine ⟨buf, rfl, rfl, fun j _ => rfl, fun i hi => absurd hi (by simp)⟩
  | cons fd rest ih =>
    intro buf off cap cnt hcap hbound
    simp only [List.length_cons] at hcap
    have hnot : ¬cap < sizeof_RawFd := by simp only [sizeof_RawFd]; omega
    simp only [encodeLoop, if_neg hnot]
    have hlen1 : (writeBytes buf off (toNeBytes fd)).length = buf.length :=
      writeBytes_length _ _ _
    obtain ⟨bufOut, heq, hlen, huntouched, hreads⟩ :=
      ih (writeBytes buf off (toNeBytes fd)) (off + sizeof_RawFd) (cap - sizeof_RawFd)
        (cnt + 1) (by simp only [sizeof_RawFd]; omega)
        (by simp only [sizeof_RawFd] at *; omega)
    refine ⟨bufOut, ?_, by omega, ?_, ?_⟩
    · rw [heq]
      congr 1
      congr 1
      simp only [List.length_cons]
      omega
    · intro j hj
      rw [huntouched j (by simp only [sizeof_RawFd] at *; simp at hj; omega)]
      exact getD_writeBytes_outside _ _ _ _ (by
        rw [toNeBytes, leBytes_length]
        simp only [List.length_cons] at hj
        omega)
    · intro i hi
      cases i with
      | zero =>
        simp only [Nat.mul_zero, Nat.add_zero, List.get]
        have huw : ∀ jj, jj < 4 →
            bufOut.getD (off + jj) 0 = (writeBytes buf off (toNeBytes fd)).getD (off + jj) 0 := by
          intro jj hjj
          exact huntouched (off + jj) (by simp only [sizeof_RawFd]; omega)
        rw [readLe_congr 4 bufOut (writeBytes buf off (toNeBytes fd)) off off huw]
        rw [toNeBytes, readLe_writeBytes_leBytes 4 buf off (toUInt32 fd) (by omega)]
        have := toUInt32_lt fd
        rw [Nat.mod_eq_of_lt (by norm_num at this ⊢; omega)]
      | succ i =>
        simp only [List.length_cons] at hi
        have := hreads i (by omega)
        rw [show off + sizeof_RawFd + 4 * i = off + 4 * (i + 1) by
          simp only [sizeof_RawFd]; omega] at this
        simp only [List.get] at this ⊢
        exact this

theorem encodeLoop_err (fds : List Int) :
    ∀ (buf : List Nat) (off cap cnt : Nat), cap < 4 * fds.length →
      ∃ b, encodeLoop buf off cap cnt fds = .error b := by
  induction fds with
  | nil =>
    intro buf off cap cnt hcap
    simp at hcap
  | cons fd rest ih =>
    intro buf off cap cnt hcap
    by_cases h4 : cap < sizeof_RawFd
    · exact ⟨buf, by simp [encodeLoop, h4]⟩
    · simp only [encodeLoop, if_neg h4]
      apply ih
      simp only [List.length_cons] at hcap
      simp only [sizeof_RawFd] at *
      omega

/-! ### Claim theorems -/

theorem CMSG_ALIGN_16_add (x : Nat) : CMSG_ALIGN (16 + x) = 16 + CMSG_ALIGN x := by
  simp only [CMSG_ALIGN]
  omega

/-- A single-record sample region: one `(SOL_SOCKET, SCM_RIGHTS)` record,
`cmsg_len = 24`, carrying the two ids 5 and 7. -/
def sampleRegion : List Nat :=
  [24, 0, 0, 0, 0, 0, 0, 0, 1, 0, 0, 0, 1, 0, 0, 0, 5, 0, 0, 0, 7, 0, 0, 0]

/-- A single-record region with `cmsg_len = 22`: 6 payload bytes, so the
payload is not a multiple of the 4-byte id size. -/
def oddRegion : List Nat :=
  [22, 0, 0, 0, 0, 0, 0, 0, 1, 0, 0, 0, 1, 0, 0, 0, 9, 9, 9, 9, 7, 7]

/-- C9: the first `transferOut` (`into_raw_fd`) on a descriptor handle returns
the contained id and leaves the wrapper empty; `transferOut` on the empty
wrapper is the `expect` panic (modelled as `none`): it fails loudly and never
returns an id. -/
theorem c9_transfer_out (id : Int) :
    Fd.into_raw_fd (Fd.new id) = some (id, ⟨none⟩) ∧
    Fd.into_raw_fd (⟨none⟩ : Fd) = none :=
  ⟨rfl, rfl⟩

/-- C10: `cmsg_buffer_fds_space` truncates `count * size_of::<RawFd>()` to 32
bits before `CMSG_SPACE`: below `2 ^ 32` it passes the exact byte count, at or
above `2 ^ 32` the byte count wraps and the result is smaller than the
`count * 4 + 16` bytes actually needed for `count` handles. -/
theorem c10_fds_space_wraps (count : Nat) :
    (count * sizeof_RawFd < 2 ^ 32 →
      cmsg_buffer_fds_space count = CMSG_SPACE (count * sizeof_RawFd)) ∧
    (2 ^ 32 ≤ count * sizeof_RawFd →
      cmsg_buffer_fds_space count = CMSG_SPACE (count * sizeof_RawFd % 2 ^ 32) ∧
      cmsg_buffer_fds_space count < count * sizeof_RawFd + 16) := by
  constructor
  · intro h
    simp only [cmsg_buffer_fds_space]
    congr 1
    rw [Nat.mod_eq_of_lt (lt_of_lt_of_le h (by norm_num)), Nat.mod_eq_of_lt h]
  · intro h
    constructor
    · simp only [cmsg_buffer_fds_space]
      congr 1
      exact Nat.mod_mod_of_dvd _ (by norm_num)
    · have h1 : cmsg_buffer_fds_space count < 2 ^ 32 := by
        simp only [cmsg_buffer_fds_space, CMSG_SPACE]
        exact Nat.mod_lt _ (by norm_num)
      omega

theorem c10_fds_space_wraps_witness :
    (cmsg_buffer_fds_space 5 = CMSG_SPACE (5 * sizeof_RawFd)) ∧
    (cmsg_buffer_fds_space (2 ^ 30) = CMSG_SPACE (2 ^ 30 * sizeof_RawFd % 2 ^ 32) ∧
      cmsg_buffer_fds_space (2 ^ 30) < 2 ^ 30 * sizeof_RawFd + 16) :=
  ⟨(c10_fds_space_wraps 5).1 (by norm_num [sizeof_RawFd]),
   (c10_fds_space_wraps (2 ^ 30)).2 (by norm_num [sizeof_RawFd])⟩

/-- C2: one-shot extraction: whatever happened to the sequence returned by the
first `take_fds` call, a second `take_fds` on the same `ReceiveEnd` returns
`FdsIter::empty`, whose `next` immediately yields nothing and whose full drain
is empty. -/
theorem c2_take_fds_one_shot (r : MsgHdrRecvEnd) (buf : List Nat) (cl : Nat) :
    ((r.take_fds.2).take_fds).1 = FdsIter.empty ∧
    fdsIterNext buf cl FdsIter.empty = none ∧
    FdsIter.drain buf cl FdsIter.empty = [] := by
  refine ⟨?_, ?_, ?_⟩
  · by_cases h : r.fds_taken
    · simp [MsgHdrRecvEnd.take_fds, h]
    · simp [MsgHdrRecvEnd.take_fds, h]
  · exact fdsIterNext_cmsg_none buf cl _ rfl rfl
  · exact drain_none buf cl _ (fdsIterNext_cmsg_none buf cl _ rfl rfl)

/-- C3: dropping a `ReceiveEnd` whose fds were never taken closes exactly the
handle ids present in its ancillary data (the chain walk of its relevant
records), once each; dropping after `take_fds` closes nothing. -/
theorem c3_recv_end_drop (r : MsgHdrRecvEnd) :
    (r.fds_taken = false →
      r.dropCloses = closedFds (ancillaryFds r.buf r.controllen)) ∧
    (r.fds_taken = true → r.dropCloses = []) := by
  constructor
  · intro h
    simp only [MsgHdrRecvEnd.dropCloses, MsgHdrRecvEnd.take_fds, h, Bool.false_eq_true,
      if_false, FdsIter.dropCloses]
    rw [drain_new_eq]
  · intro h
    simp [MsgHdrRecvEnd.dropCloses, h]

theorem c3_recv_end_drop_witness :
    (MsgHdrRecvEnd.dropCloses ⟨sampleRegion, 24, false⟩ =
      closedFds (ancillaryFds sampleRegion 24)) ∧
    (MsgHdrRecvEnd.dropCloses ⟨sampleRegion, 24, true⟩ = []) :=
  ⟨(c3_recv_end_drop ⟨sampleRegion, 24, false⟩).1 rfl,
   (c3_recv_end_drop ⟨sampleRegion, 24, true⟩).2 rfl⟩

/-- C4: if `k` successful `next` calls on an extraction sequence produce the
handles `taken` and leave the sequence in state `s2`, then the full sequence
splits as `taken ++ drain s2` with `taken.length = k`, and dropping the
leftover sequence closes exactly the handles after position `k` — never any of
the `k` already-produced ones. -/
theorem c4_partial_consumption (buf : List Nat) (cl : Nat) :
    ∀ (k : Nat) (s : FdsIter) (taken : List Fd) (s2 : FdsIter),
      consume buf cl k s = some (taken, s2) →
      FdsIter.drain buf cl s = taken ++ FdsIter.drain buf cl s2 ∧
      taken.length = k ∧
      FdsIter.dropCloses buf cl s2 = closedFds ((FdsIter.drain buf cl s).drop k) := by
  intro k
  induction k with
  | zero =>
    intro s taken s2 h
    simp only [consume, Option.some.injEq, Prod.mk.injEq] at h
    rw [← h.1, ← h.2]
    exact ⟨by simp, rfl, rfl⟩
  | succ k ih =>
    intro s taken s2 h
    simp only [consume] at h
    rcases hn : fdsIterNext buf cl s with _ | p
    · rw [hn] at h
      exact absurd h (by simp)
    · obtain ⟨fd, s1⟩ := p
      rw [hn] at h
      replace h : Option.map (fun p => (fd :: p.1, p.2)) (consume buf cl k s1) =
        some (taken, s2) := h
      rcases hc : consume buf cl k s1 with _ | p2
      · rw [hc] at h
        exact absurd h (by simp)
      · obtain ⟨taken1, s3⟩ := p2
        rw [hc] at h
        simp only [Option.map_some', Option.some.injEq, Prod.mk.injEq] at h
        obtain ⟨htk, hs⟩ := h
        obtain ⟨hd, hlen, hdrop⟩ := ih s1 taken1 s2 (by rw [hc, hs])
        rw [drain_cons buf cl s fd s1 hn]
        refine ⟨?_, ?_, ?_⟩
        · rw [← htk, hd]
          rfl
        · rw [← htk]
          simp [hlen]
        · rw [List.drop_succ_cons, hdrop]

theorem c4_partial_consumption_witness :
    consume sampleRegion 24 1 (FdsIter.new sampleRegion 24) =
      some ([Fd.new 5], ⟨some 0, some ⟨20, 24⟩⟩) ∧
    (FdsIter.drain sampleRegion 24 (FdsIter.new sampleRegion 24) =
        [Fd.new 5] ++ FdsIter.drain sampleRegion 24 ⟨some 0, some ⟨20, 24⟩⟩ ∧
      ([Fd.new 5] : List Fd).length = 1 ∧
      FdsIter.dropCloses sampleRegion 24 ⟨some 0, some ⟨20, 24⟩⟩ =
        closedFds ((FdsIter.drain sampleRegion 24 (FdsIter.new sampleRegion 24)).drop 1)) := by
  have hnew : FdsIter.new sampleRegion 24 = ⟨some 0, some ⟨16, 24⟩⟩ := by
    decide
  have hstep : fdsIterNext sampleRegion 24 ⟨some 0, some ⟨16, 24⟩⟩ =
      some (Fd.new 5, ⟨some 0, some ⟨20, 24⟩⟩) := by
    have := fdsIterNext_yield sampleRegion 24 ⟨some 0, some ⟨16, 24⟩⟩ ⟨16, 24⟩
      (Fd.new (decodeRawFd (readLe sampleRegion 16 4))) ⟨16 + sizeof_RawFd, 24⟩ rfl
      (FdsIterData.next_pos sampleRegion ⟨16, 24⟩ (by norm_num))
    rw [this]
    decide
  have hcons : consume sampleRegion 24 1 (FdsIter.new sampleRegion 24) =
      some ([Fd.new 5], ⟨some 0, some ⟨20, 24⟩⟩) := by
    rw [hnew]
    simp only [consume, hstep]
    rfl
  exact ⟨hcons, c4_partial_consumption sampleRegion 24 1 (FdsIter.new sampleRegion 24)
    [Fd.new 5] ⟨some 0, some ⟨20, 24⟩⟩ hcons⟩

/-- C7: the extraction sequence over a received region is the concatenation of
the per-record fds over the whole record chain, and records that are not
`(SOL_SOCKET, SCM_RIGHTS)` contribute nothing: restricting the chain to its
relevant records does not change the result, so an irrelevant record neither
yields handles nor stops the traversal. -/
theorem c7_irrelevant_records_skipped (buf : List Nat) (cl : Nat) :
    FdsIter.drain buf cl (FdsIter.new buf cl) =
      listFlat (recordFds buf) (chainOffsets buf cl) ∧
    listFlat (recordFds buf) (chainOffsets buf cl) =
      listFlat (recordFds buf)
        ((chainOffsets buf cl).filter (fun o => relevantRecord buf o)) := by
  refine ⟨drain_new_flat buf cl, ?_⟩
  generalize chainOffsets buf cl = l
  induction l with
  | nil => rfl
  | cons o rest ih =>
    simp only [listFlat, List.filter_cons]
    by_cases h : relevantRecord buf o
    · rw [if_pos h]
      simp only [listFlat]
      rw [ih]
    · have hrec : recordFds buf o = [] := by
        simp only [recordFds, FdsIterData.new]
        rw [if_neg h]
        rfl
      rw [if_neg h, hrec, ih]
      simp

/-- C8: the number of handles the extraction sequence produces from one
relevant record is the record's payload size (`cmsg_len - 16` bytes) divided
by the id size with integer (floor) division: trailing padding bytes are
ignored. -/
theorem c8_record_count_rounds_down (buf : List Nat) (o : Nat)
    (hrel : relevantRecord buf o = true) (hlen : 16 ≤ readLe buf o 8) :
    (recordFds buf o).length = (readLe buf o 8 - 16) / sizeof_RawFd := by
  simp only [recordFds, FdsIterData.new, hrel, if_true, dataPart, sizeof_RawFd]
  rw [dataDrain_length buf ((readLe buf o 8 - 16) / 4) (o + 16)]

theorem c8_record_count_rounds_down_witness :
    relevantRecord oddRegion 0 = true ∧ 16 ≤ readLe oddRegion 0 8 ∧
    (recordFds oddRegion 0).length = (readLe oddRegion 0 8 - 16) / sizeof_RawFd :=
  ⟨by decide, by decide, c8_record_count_rounds_down oddRegion 0 (by decide) (by decide)⟩

/-- C5 counterexample: encoding 3 ids into a 24-byte scratch buffer (payload
capacity 8 bytes) returns the BufferTooSmall error, but the buffer the caller
gets back is NOT unchanged: the record header (`cmsg_len = 24`, level, type)
and the first two ids have been written into it.  The claim's "no partial
write that would be observable" part is false. -/
theorem c5_counterexample :
    encode_fds (List.replicate 24 0) [1, 2, 3] =
      .bufferTooSmall
        [24, 0, 0, 0, 0, 0, 0, 0, 1, 0, 0, 0, 1, 0, 0, 0, 1, 0, 0, 0, 2, 0, 0, 0] ∧
    ([24, 0, 0, 0, 0, 0, 0, 0, 1, 0, 0, 0, 1, 0, 0, 0, 1, 0, 0, 0, 2, 0, 0, 0]
        : List Nat) ≠ List.replicate 24 0 := by
  constructor
  · decide
  · decide

/-- C5 (amended): whenever the ids need more payload space than the scratch
buffer offers (`4 * fds.length > buf.length - 16`), `encode_fds` fails with
the BufferTooSmall error and no `SendReady` is produced — but the scratch
buffer may retain the written record header and a prefix of the ids.  (The
`buf.length < 2 ^ 32` bound keeps the internal `u32` conversion from
panicking instead.) -/
theorem c5_buffer_too_small (buf : List Nat) (fds : List Int)
    (hlen : buf.length < 2 ^ 32) (hreq : buf.length - 16 < 4 * fds.length) :
    ∃ b, encode_fds buf fds = .bufferTooSmall b := by
  by_cases h16 : buf.length < 16
  · refine ⟨buf, ?_⟩
    simp only [encode_fds, if_pos h16]
    rw [if_pos (by omega : 0 < fds.length)]
  · have hds : ¬2 ^ 32 ≤ buf.length - 16 := by omega
    have hml : CMSG_LEN (buf.length - 16) = buf.length := by
      simp only [CMSG_LEN, CMSG_ALIGN]
      omega
    simp only [encode_fds, if_neg h16, if_neg hds, hml]
    obtain ⟨b, hb⟩ := encodeLoop_err fds _ 16 (buf.length - 16) 0 (by omega)
    rw [hb]
    exact ⟨b, rfl⟩

theorem c5_buffer_too_small_witness :
    (List.replicate 24 (0 : Nat)).length < 2 ^ 32 ∧
    (List.replicate 24 (0 : Nat)).length - 16 < 4 * ([1, 2, 3] : List Int).length ∧
    ∃ b, encode_fds (List.replicate 24 0) [1, 2, 3] = .bufferTooSmall b :=
  ⟨by norm_num, by norm_num,
   c5_buffer_too_small (List.replicate 24 0) [1, 2, 3] (by norm_num) (by norm_num)⟩

/-- On a control buffer whose stored `cmsg_len` (a `c_uint`) wraps below the
header size, the `assert!` in `CMsgMut::data` aborts whatever the id sequence
is. -/
theorem encode_panic_of_wrap (buf : List Nat) (fds : List Int)
    (h16 : ¬buf.length < 16) (hds : ¬2 ^ 32 ≤ buf.length - 16)
    (hml : CMSG_LEN (buf.length - 16) < 16) :
    encode_fds buf fds = .panic := by
  simp only [encode_fds, if_neg h16, if_neg hds]
  rw [if_pos hml]

/-- C6 counterexample: on a send header whose ancillary scratch buffer has
`2 ^ 32` bytes, `encode_fds` with an empty id sequence does not succeed: the
stored `cmsg_len` (a `c_uint`) wraps to 0 and the `assert!` in
`CMsgMut::data` aborts.  The claim's "for every send header" is false. -/
theorem c6_counterexample :
    encode_fds (List.replicate (2 ^ 32) 0) [] = .panic := by
  apply encode_panic_of_wrap
  · rw [List.length_replicate]
    norm_num
  · rw [List.length_replicate]
    norm_num
  · rw [List.length_replicate]
    simp only [CMSG_LEN, CMSG_ALIGN]
    norm_num

/-- C6 (amended): on any send header whose ancillary scratch buffer is
shorter than `2 ^ 32` bytes, encoding an empty id sequence succeeds, sets
`msg_control` to null with `msg_controllen = 0` (no zero-payload record is
emitted), and returns a `SendReady` with descriptor count 0. -/
theorem c6_empty_encode (buf : List Nat) (hlen : buf.length < 2 ^ 32) :
    ∃ b, encode_fds buf [] = .ok ⟨b, true, 0, 0⟩ := by
  by_cases h16 : buf.length < 16
  · refine ⟨buf, ?_⟩
    simp [encode_fds, if_pos h16]
  · have hds : ¬2 ^ 32 ≤ buf.length - 16 := by omega
    have hml : CMSG_LEN (buf.length - 16) = buf.length := by
      simp only [CMSG_LEN, CMSG_ALIGN]
      omega
    simp only [encode_fds, if_neg h16, if_neg hds, hml]
    simp only [encodeLoop]
    exact ⟨_, rfl⟩

theorem c6_empty_encode_witness :
    (List.replicate 24 (0 : Nat)).length < 2 ^ 32 ∧
    ∃ b, encode_fds (List.replicate 24 0) [] = .ok ⟨b, true, 0, 0⟩ :=
  ⟨by norm_num, c6_empty_encode (List.replicate 24 0) (by norm_num)⟩

/-- C1 (amended): the encode/decode round trip over the ancillary bytes.  For
ids in `i32` range, with `4 * N + 24 <= 2 ^ 32` (so the size computation does
not wrap, cf. `cmsg_buffer_fds_space`) and a scratch buffer shorter than
`2 ^ 32` bytes (so the internal `u32` conversions cannot panic) of length at
least `cmsg_buffer_fds_space N`: `encode_fds` succeeds with descriptor count
`N`, and draining a fresh `FdsIter` over the resulting bytes and
`msg_controllen` yields exactly the same `N` ids, in order, each wrapped in a
fresh descriptor handle whose `transferOut` yields its id once. -/
theorem c1_round_trip (fds : List Int) (buf : List Nat)
    (hrange : ∀ fd ∈ fds, -(2 ^ 31) ≤ fd ∧ fd < 2 ^ 31)
    (hN : 4 * fds.length + 24 ≤ 2 ^ 32)
    (hL : buf.length < 2 ^ 32)
    (hsp : cmsg_buffer_fds_space fds.length ≤ buf.length) :
    ∃ out, encode_fds buf fds = .ok out ∧ out.fds_count = fds.length ∧
      FdsIter.drain out.buf out.controllen (FdsIter.new out.buf out.controllen) =
        fds.map Fd.new ∧
      ∀ fd ∈ fds, Fd.into_raw_fd (Fd.new fd) = some (fd, ⟨none⟩) := by
  have halign := CMSG_ALIGN_ge (4 * fds.length)
  have halign2 : CMSG_ALIGN (4 * fds.length) ≤ 4 * fds.length + 7 := by
    simp only [CMSG_ALIGN]
    omega
  have hspace : cmsg_buffer_fds_space fds.length = CMSG_ALIGN (4 * fds.length) + 16 := by
    simp only [cmsg_buffer_fds_space, CMSG_SPACE, CMSG_ALIGN, sizeof_RawFd]
    omega
  rw [hspace] at hsp
  have h16 : ¬buf.length < 16 := by omega
  have hds : ¬2 ^ 32 ≤ buf.length - 16 := by omega
  have hml : CMSG_LEN (buf.length - 16) = buf.length := by
    simp only [CMSG_LEN, CMSG_ALIGN]
    omega
  simp only [encode_fds, if_neg h16, if_neg hds, hml]
  set buf1 := writeLe buf 8 4 SOL_SOCKET with hbuf1
  set buf2 := writeLe buf1 12 4 SCM_RIGHTS with hbuf2
  set buf3 := writeLe buf2 0 8 buf.length with hbuf3
  have hlen1 : buf1.length = buf.length := writeLe_length buf 8 4 SOL_SOCKET
  have hlen2 : buf2.length = buf.length := by rw [hbuf2, writeLe_length, hlen1]
  have hlen3 : buf3.length = buf.length := by rw [hbuf3, writeLe_length, hlen2]
  obtain ⟨bufOut, heq, hlenO, huntouch, hreads⟩ :=
    encodeLoop_ok fds buf3 16 (buf.length - 16) 0 (by omega) (by omega)
  rw [heq]
  simp only [Nat.zero_add]
  have hcur : readLe bufOut 0 8 = buf.length := by
    have hcg : ∀ i, i < 8 → bufOut.getD (0 + i) 0 = buf3.getD (0 + i) 0 :=
      fun i hi => huntouch (0 + i) (Or.inl (by omega))
    rw [readLe_congr 8 bufOut buf3 0 0 hcg, hbuf3,
      readLe_writeLe 8 buf2 0 buf.length (by omega)]
    have h64 : (256 : Nat) ^ 8 = 2 ^ 64 := by norm_num
    rw [Nat.mod_eq_of_lt (by omega)]
  have hnewLen : CMSG_LEN (fds.length * sizeof_RawFd) = 16 + 4 * fds.length := by
    simp only [CMSG_LEN, CMSG_ALIGN, sizeof_RawFd]
    omega
  rw [hnewLen, hcur]
  set bufF := if 16 + 4 * fds.length < buf.length then
    writeLe bufOut 0 8 (16 + 4 * fds.length) else bufOut with hbufF
  have hlenF : bufF.length = buf.length := by
    rw [hbufF]
    split
    · rw [writeLe_length, hlenO, hlen3]
    · rw [hlenO, hlen3]
  have hgetF_ge8 : ∀ j, 8 ≤ j → bufF.getD j 0 = bufOut.getD j 0 := by
    intro j hj
    rw [hbufF]
    split
    · exact getD_writeLe_outside bufOut 0 8 (16 + 4 * fds.length) j (Or.inr (by omega))
    · rfl
  have hreadF : readLe bufF 0 8 = 16 + 4 * fds.length := by
    rw [hbufF]
    split
    · rw [readLe_writeLe 8 bufOut 0 (16 + 4 * fds.length) (by omega)]
      have h64 : (256 : Nat) ^ 8 = 2 ^ 64 := by norm_num
      rw [Nat.mod_eq_of_lt (by omega)]
    · rename_i hnot
      rw [hcur]
      omega
  have hlevelF : readLe bufF 8 4 = SOL_SOCKET := by
    have s1 : readLe bufF 8 4 = readLe bufOut 8 4 :=
      readLe_congr 4 bufF bufOut 8 8 (fun i hi => hgetF_ge8 (8 + i) (by omega))
    have s2 : readLe bufOut 8 4 = readLe buf3 8 4 :=
      readLe_congr 4 bufOut buf3 8 8 (fun i hi => huntouch (8 + i) (Or.inl (by omega)))
    have s3 : readLe buf3 8 4 = readLe buf2 8 4 := by
      rw [hbuf3]
      exact readLe_congr 4 _ buf2 8 8 (fun i hi =>
        getD_writeLe_outside buf2 0 8 buf.length (8 + i) (Or.inr (by omega)))
    have s4 : readLe buf2 8 4 = readLe buf1 8 4 := by
      rw [hbuf2]
      exact readLe_congr 4 _ buf1 8 8 (fun i hi =>
        getD_writeLe_outside buf1 12 4 SCM_RIGHTS (8 + i) (Or.inl (by omega)))
    have s5 : readLe buf1 8 4 = SOL_SOCKET := by
      rw [hbuf1, readLe_writeLe 4 buf 8 SOL_SOCKET (by omega)]
      decide
    rw [s1, s2, s3, s4, s5]
  have htypeF : readLe bufF 12 4 = SCM_RIGHTS := by
    have s1 : readLe bufF 12 4 = readLe bufOut 12 4 :=
      readLe_congr 4 bufF bufOut 12 12 (fun i hi => hgetF_ge8 (12 + i) (by omega))
    have s2 : readLe bufOut 12 4 = readLe buf3 12 4 :=
      readLe_congr 4 bufOut buf3 12 12 (fun i hi => huntouch (12 + i) (Or.inl (by omega)))
    have s3 : readLe buf3 12 4 = readLe buf2 12 4 := by
      rw [hbuf3]
      exact readLe_congr 4 _ buf2 12 12 (fun i hi =>
        getD_writeLe_outside buf2 0 8 buf.length (12 + i) (Or.inr (by omega)))
    have s4 : readLe buf2 12 4 = SCM_RIGHTS := by
      rw [hbuf2, readLe_writeLe 4 buf1 12 SCM_RIGHTS (by omega)]
      decide
    rw [s1, s2, s3, s4]
  have hdataF : ∀ i, (hi : i < fds.length) →
      readLe bufF (16 + 4 * i) 4 = toUInt32 (fds.get ⟨i, hi⟩) := by
    intro i hi
    have : readLe bufF (16 + 4 * i) 4 = readLe bufOut (16 + 4 * i) 4 :=
      readLe_congr 4 bufF bufOut _ _ (fun j hj => hgetF_ge8 (16 + 4 * i + j) (by omega))
    rw [this]
    exact hreads i hi
  have hrel : relevantRecord bufF 0 = true := by
    simp [relevantRecord, hlevelF, htypeF]
  have hnewData : FdsIterData.new bufF 0 = some ⟨16, 16 + 4 * fds.length⟩ := by
    simp only [FdsIterData.new, hrel, if_true, sizeof_RawFd, Nat.zero_add, hreadF]
    have harith : (16 + 4 * fds.length - 16) / 4 = fds.length := by omega
    rw [harith]
  by_cases hN0 : fds.length = 0
  · rw [if_pos hN0]
    have hnil : fds = [] := List.length_eq_zero.mp hN0
    subst hnil
    refine ⟨⟨bufF, true, 0, 0⟩, rfl, rfl, ?_, by simp⟩
    have hempty : FdsIter.new bufF 0 = FdsIter.empty := by
      simp [FdsIter.new, cmsgFirsthdr, FdsIter.empty]
    rw [hempty, drain_none bufF 0 FdsIter.empty (fdsIterNext_cmsg_none bufF 0 FdsIter.empty rfl rfl)]
    simp
  · rw [if_neg hN0]
    refine ⟨⟨bufF, false, cmsg_buffer_fds_space fds.length, fds.length⟩, rfl, rfl, ?_,
      fun fd _ => rfl⟩
    have hfh : cmsgFirsthdr (cmsg_buffer_fds_space fds.length) = some 0 := by
      simp only [cmsgFirsthdr, hspace]
      rw [if_pos (by omega)]
    have hnxt : cmsgNxthdr bufF (cmsg_buffer_fds_space fds.length) 0 = none := by
      simp only [cmsgNxthdr, hreadF, Nat.zero_add, CMSG_ALIGN_16_add, hspace]
      rw [if_neg (by omega), if_pos (by omega)]
    have hnewState : FdsIter.new bufF (cmsg_buffer_fds_space fds.length) =
        ⟨some 0, some ⟨16, 16 + 4 * fds.length⟩⟩ := by
      simp only [FdsIter.new, hfh, Option.some_bind, hnewData]
    rw [hnewState]
    rw [drain_state_eq bufF (cmsg_buffer_fds_space fds.length)
      (cmsg_buffer_fds_space fds.length + 16) (dataRem (some ⟨16, 16 + 4 * fds.length⟩))
      0 (some ⟨16, 16 + 4 * fds.length⟩) (by omega) (le_refl _)]
    rw [hnxt]
    simp only [dataPart, List.append_nil]
    exact dataDrain_reads bufF fds 16 hdataF hrange

theorem c1_round_trip_witness :
    (∀ fd ∈ ([5, -3] : List Int), -(2 ^ 31) ≤ fd ∧ fd < 2 ^ 31) ∧
    4 * ([5, -3] : List Int).length + 24 ≤ 2 ^ 32 ∧
    (List.replicate 24 (0 : Nat)).length < 2 ^ 32 ∧
    cmsg_buffer_fds_space ([5, -3] : List Int).length ≤
      (List.replicate 24 (0 : Nat)).length ∧
    ∃ out, encode_fds (List.replicate 24 0) [5, -3] = .ok out ∧
      out.fds_count = ([5, -3] : List Int).length ∧
      FdsIter.drain out.buf out.controllen (FdsIter.new out.buf out.controllen) =
        ([5, -3] : List Int).map Fd.new ∧
      ∀ fd ∈ ([5, -3] : List Int), Fd.into_raw_fd (Fd.new fd) = some (fd, ⟨none⟩) :=
  ⟨by decide, by norm_num, by norm_num, by decide,
   c1_round_trip [5, -3] (List.replicate 24 0) (by decide) (by norm_num) (by norm_num)
     (by decide)⟩

/-- Encoding a first id into a control buffer whose writable payload slice is
shorter than one id fails immediately with the BufferTooSmall error, leaving
the written record header in the buffer. -/
theorem encode_too_small_head (buf : List Nat) (fd : Int) (fds : List Int)
    (h16 : ¬buf.length < 16) (hds : ¬2 ^ 32 ≤ buf.length - 16)
    (hm16 : ¬CMSG_LEN (buf.length - 16) < 16)
    (hcap : CMSG_LEN (buf.length - 16) - 16 < 4) :
    encode_fds buf (fd :: fds) =
      .bufferTooSmall (writeLe (writeLe (writeLe buf 8 4 SOL_SOCKET) 12 4 SCM_RIGHTS)
        0 8 (CMSG_LEN (buf.length - 16))) := by
  simp only [encode_fds, if_neg h16, if_neg hds]
  rw [if_neg hm16]
  simp only [encodeLoop, sizeof_RawFd]
  rw [if_pos hcap]

/-- C1 counterexample: for the count `N = 2 ^ 30` the byte count
`4 * N = 2 ^ 32` wraps to 0 inside `cmsg_buffer_fds_space`, which returns just
16; a 16-byte ancillary buffer therefore satisfies the claim's size
hypothesis, yet encoding the `2 ^ 30` ids fails with BufferTooSmall instead of
round-tripping. -/
theorem c1_counterexample :
    cmsg_buffer_fds_space (2 ^ 30) ≤ (List.replicate 16 (0 : Nat)).length ∧
    encode_fds (List.replicate 16 0) (List.replicate (2 ^ 30) (0 : Int)) =
      .bufferTooSmall [16, 0, 0, 0, 0, 0, 0, 0, 1, 0, 0, 0, 1, 0, 0, 0] := by
  constructor
  · decide
  · have hidx : (2 ^ 30 : Nat) = 2 ^ 30 - 1 + 1 := by norm_num
    have hrepl : List.replicate (2 ^ 30) (0 : Int) =
        0 :: List.replicate (2 ^ 30 - 1) 0 := by
      conv_lhs => rw [hidx]
      rw [List.replicate_succ]
    rw [hrepl]
    rw [encode_too_small_head (List.replicate 16 0) 0 (List.replicate (2 ^ 30 - 1) 0)
      (by rw [List.length_replicate]; decide) (by rw [List.length_replicate]; norm_num)
      (by rw [List.length_replicate]; decide) (by rw [List.length_replicate]; decide)]
    decide
